import Mathlib

/-!
Shallow embedding of the HeliosDB replicated state-machine core:
the versioned in-memory store (`internal/store`), the write-ahead log
(`internal/persistence`), the FSM (`internal/raft/fsm.go`), the startup
WAL-replay closure (`cmd/heliosdb/main.go`) and the command wire format
(`encoding/json` marshalling of the `Command` structs).
-/

namespace HeliosDB

/-! ## JSON string escaping (models Go `encoding/json` string encoding,
with the default HTML escaping that `json.Marshal` applies). -/

/-- Lower-case hexadecimal digit character for a nibble. -/
def hexDigitChar (n : Nat) : Char :=
  if n < 10 then Char.ofNat (48 + n) else Char.ofNat (87 + n)

/-- `\u` escape with four hex digits, as emitted by Go's JSON encoder. -/
def uEscape (n : Nat) : List Char :=
  ['\\', 'u', hexDigitChar (n / 4096 % 16), hexDigitChar (n / 256 % 16),
   hexDigitChar (n / 16 % 16), hexDigitChar (n % 16)]

/-- Per-character JSON escaping as performed by `json.Marshal` on strings:
`"` and `\` get a backslash escape, the controls `\n`, `\r`, `\t` use their
short escapes, other control characters and the HTML-escaped `<`, `>`, `&`
(and U+2028/U+2029) become `\u` escapes, everything else is emitted raw. -/
def escChar (c : Char) : List Char :=
  if c = '"' then ['\\', '"']
  else if c = '\\' then ['\\', '\\']
  else if c = '\n' then ['\\', 'n']
  else if c = '\r' then ['\\', 'r']
  else if c = '\t' then ['\\', 't']
  else if c.toNat < 32 ∨ c = '<' ∨ c = '>' ∨ c = '&' ∨
          c.toNat = 0x2028 ∨ c.toNat = 0x2029 then uEscape c.toNat
  else [c]

/-- Escape every character of a string body. -/
def escapeChars : List Char → List Char
  | [] => []
  | c :: cs => escChar c ++ escapeChars cs

/-- A JSON string literal: quote, escaped body, quote. -/
def quoteString (s : String) : String :=
  String.mk ('"' :: (escapeChars s.data ++ ['"']))

/-! ## JSON string parsing (models `json.Unmarshal` string decoding on
the escapes the encoder above can produce). -/

/-- Numeric value of a hex digit character, if it is one. -/
def hexDigitVal? (c : Char) : Option Nat :=
  if 48 ≤ c.toNat ∧ c.toNat ≤ 57 then some (c.toNat - 48)
  else if 97 ≤ c.toNat ∧ c.toNat ≤ 102 then some (c.toNat - 87)
  else if 65 ≤ c.toNat ∧ c.toNat ≤ 70 then some (c.toNat - 55)
  else none

/-- Prepend a decoded character to a string-parse result. -/
def pcons (c : Char) (r : Option (List Char × List Char)) :
    Option (List Char × List Char) :=
  r.map (fun p => (c :: p.1, p.2))

/-- Parse the body of a JSON string up to (and consuming) the closing
quote, un-escaping as `json.Unmarshal` does; returns the decoded
characters and the rest of the input. -/
def parseStrBody (l : List Char) : Option (List Char × List Char) :=
  match l with
  | [] => none
  | c :: rest =>
    if c = '"' then some ([], rest)
    else if c = '\\' then
      match rest with
      | [] => none
      | e :: r =>
        if e = '"' then pcons '"' (parseStrBody r)
        else if e = '\\' then pcons '\\' (parseStrBody r)
        else if e = 'n' then pcons '\n' (parseStrBody r)
        else if e = 'r' then pcons '\r' (parseStrBody r)
        else if e = 't' then pcons '\t' (parseStrBody r)
        else if e = 'u' then
          match r with
          | h1 :: h2 :: h3 :: h4 :: r2 =>
            match hexDigitVal? h1, hexDigitVal? h2, hexDigitVal? h3,
                  hexDigitVal? h4 with
            | some a, some b, some d, some f =>
              pcons (Char.ofNat (a * 4096 + b * 256 + d * 16 + f))
                (parseStrBody r2)
            | _, _, _, _ => none
          | _ => none
        else none
    else pcons c (parseStrBody rest)
termination_by l.length
decreasing_by all_goals simp_arith

/-- Parse a complete JSON string literal (leading quote included). -/
def parseJString (l : List Char) : Option (String × List Char) :=
  match l with
  | c :: rest =>
    if c = '"' then (parseStrBody rest).map (fun p => (String.mk p.1, p.2))
    else none
  | [] => none

/-! ### Round-trip of the string escaping -/

theorem hexDigitVal_hexDigitChar : ∀ n < 16, hexDigitVal? (hexDigitChar n) = some n := by
  decide

theorem hexDigitChar_ne (n : Nat) (hn : n < 16) :
    hexDigitChar n ≠ '\n' ∧ hexDigitChar n ≠ '\r' := by
  revert n; decide

theorem parse_uEscape (c : Char) (h : c.toNat < 65536) (tail : List Char) :
    parseStrBody (uEscape c.toNat ++ tail) = pcons c (parseStrBody tail) := by
  have h1 := hexDigitVal_hexDigitChar (c.toNat / 4096 % 16) (Nat.mod_lt _ (by omega))
  have h2 := hexDigitVal_hexDigitChar (c.toNat / 256 % 16) (Nat.mod_lt _ (by omega))
  have h3 := hexDigitVal_hexDigitChar (c.toNat / 16 % 16) (Nat.mod_lt _ (by omega))
  have h4 := hexDigitVal_hexDigitChar (c.toNat % 16) (Nat.mod_lt _ (by omega))
  have hv : c.toNat / 4096 % 16 * 4096 + c.toNat / 256 % 16 * 256 +
      c.toNat / 16 % 16 * 16 + c.toNat % 16 = c.toNat := by omega
  simp only [uEscape, List.cons_append, List.nil_append]
  rw [parseStrBody.eq_def]
  simp [h1, h2, h3, h4, hv]

theorem parse_escChar (c : Char) (tail : List Char) :
    parseStrBody (escChar c ++ tail) = pcons c (parseStrBody tail) := by
  by_cases hq : c = '"'
  · subst hq; rw [escChar]; simp only [if_pos rfl, List.cons_append, List.nil_append]
    rw [parseStrBody.eq_def]; simp
  by_cases hb : c = '\\'
  · subst hb; rw [escChar]; simp only [reduceIte, List.cons_append, List.nil_append]
    rw [parseStrBody.eq_def]; simp
  by_cases hn : c = '\n'
  · subst hn; rw [escChar]; simp only [reduceIte, List.cons_append, List.nil_append]
    rw [parseStrBody.eq_def]; simp
  by_cases hr : c = '\r'
  · subst hr; rw [escChar]; simp only [reduceIte, List.cons_append, List.nil_append]
    rw [parseStrBody.eq_def]; simp
  by_cases ht : c = '\t'
  · subst ht; rw [escChar]; simp only [reduceIte, List.cons_append, List.nil_append]
    rw [parseStrBody.eq_def]; simp
  by_cases hu : c.toNat < 32 ∨ c = '<' ∨ c = '>' ∨ c = '&' ∨
      c.toNat = 0x2028 ∨ c.toNat = 0x2029
  · rw [escChar, if_neg hq, if_neg hb, if_neg hn, if_neg hr, if_neg ht, if_pos hu]
    apply parse_uEscape
    rcases hu with h | h | h | h | h | h
    · omega
    · subst h; decide
    · subst h; decide
    · subst h; decide
    · omega
    · omega
  · rw [escChar, if_neg hq, if_neg hb, if_neg hn, if_neg hr, if_neg ht, if_neg hu]
    simp only [List.cons_append, List.nil_append]
    rw [parseStrBody.eq_def]
    simp [hq, hb]

theorem parse_escapeChars (s : List Char) (tail : List Char) :
    parseStrBody (escapeChars s ++ '"' :: tail) = some (s, tail) := by
  induction s with
  | nil =>
    rw [escapeChars]
    simp only [List.nil_append]
    rw [parseStrBody.eq_def]; simp
  | cons c cs ih =>
    rw [escapeChars, List.append_assoc, parse_escChar, ih, pcons]
    rfl

theorem parseJString_quote (s : String) (tail : List Char) :
    parseJString ((quoteString s).data ++ tail) = some (s, tail) := by
  obtain ⟨l⟩ := s
  show parseJString (('"' :: (escapeChars l ++ ['"'])) ++ tail) = _
  rw [parseJString.eq_def]
  simp only [List.cons_append, if_pos rfl, List.append_assoc, List.singleton_append]
  rw [parse_escapeChars]
  rfl

/-! ## Command data model

`RaftCommand` models `internal/raft.Command` (fields `op`, `key`,
`value,omitempty`); `ServerCommand` models `internal/server.Command`
(fields `op`, `key,omitempty`, `value,omitempty`, `write_set,omitempty`);
`WriteOp` models `internal/transaction.WriteOp` (no JSON tags, so Go
marshals its fields under their Go names `Key` and `Value`). -/

structure WriteOp where
  Key : String
  Value : String
deriving Repr, DecidableEq

structure RaftCommand where
  Op : String
  Key : String
  Value : String
deriving Repr, DecidableEq

structure ServerCommand where
  Op : String
  Key : String
  Value : String
  WriteSet : List WriteOp
deriving Repr, DecidableEq

/-- The JSON values that occur in marshalled commands: strings and
write-set arrays. -/
inductive JVal where
  | str (s : String)
  | arr (ws : List WriteOp)
deriving Repr, DecidableEq

/-! ## Command encoding (models `json.Marshal` on the command structs:
fields in struct order, `omitempty` fields dropped when empty). -/

/-- One write-set element: Go marshals `transaction.WriteOp` as
`{"Key":...,"Value":...}` (untagged struct fields). -/
def encodeWriteOp (w : WriteOp) : String :=
  "\x7b\"Key\":" ++ quoteString w.Key ++ ",\"Value\":" ++ quoteString w.Value ++ "\x7d"

/-- Comma-separated write-set elements. -/
def encodeWriteOps : List WriteOp → String
  | [] => ""
  | [w] => encodeWriteOp w
  | w :: ws => encodeWriteOp w ++ "," ++ encodeWriteOps ws

/-- A write-set array `[...]`. -/
def encodeWriteSet (ws : List WriteOp) : String :=
  "[" ++ encodeWriteOps ws ++ "]"

/-- One JSON object field, `"name":value`. -/
def encodeField (name : String) (v : JVal) : String :=
  quoteString name ++ ":" ++
    (match v with
     | .str s => quoteString s
     | .arr ws => encodeWriteSet ws)

/-- Comma-separated object fields. -/
def encodeFieldList : List (String × JVal) → String
  | [] => ""
  | [f] => encodeField f.1 f.2
  | f :: fs => encodeField f.1 f.2 ++ "," ++ encodeFieldList fs

/-- The field list `json.Marshal` produces for `internal/raft.Command`:
`op` and `key` always present, `value` omitted when empty. -/
def raftFields (c : RaftCommand) : List (String × JVal) :=
  [("op", .str c.Op), ("key", .str c.Key)] ++
    (if c.Value = "" then [] else [("value", .str c.Value)])

/-- The field list `json.Marshal` produces for `internal/server.Command`:
`op` always present, `key`/`value`/`write_set` omitted when empty. -/
def serverFields (c : ServerCommand) : List (String × JVal) :=
  [("op", .str c.Op)] ++
    (if c.Key = "" then [] else [("key", .str c.Key)]) ++
    (if c.Value = "" then [] else [("value", .str c.Value)]) ++
    (if c.WriteSet = [] then [] else [("write_set", .arr c.WriteSet)])

/-- `json.Marshal` of `internal/raft.Command`. -/
def encodeRaftCommand (c : RaftCommand) : String :=
  "\x7b" ++ encodeFieldList (raftFields c) ++ "\x7d"

/-- `json.Marshal` of `internal/server.Command`. -/
def encodeServerCommand (c : ServerCommand) : String :=
  "\x7b" ++ encodeFieldList (serverFields c) ++ "\x7d"

/-! ## Command decoding (models `json.Unmarshal` restricted to the
canonical encodings produced above: an object is parsed into its field
list, and each struct field takes the matching JSON field's value, with
unmatched JSON fields ignored — exactly how `json.Unmarshal` drops
unknown fields such as `write_set` on `internal/raft.Command`). -/

/-- Expect a literal character sequence, returning the rest. -/
def expectChars : List Char → List Char → Option (List Char)
  | [], l => some l
  | _ :: _, [] => none
  | p :: ps, c :: cs => if c = p then expectChars ps cs else none

/-- Parse one `{"Key":...,"Value":...}` write-op object. -/
def parseWriteOp (l : List Char) : Option (WriteOp × List Char) := do
  let l1 ← expectChars "\x7b\"Key\":".data l
  let (k, l2) ← parseJString l1
  let l3 ← expectChars ",\"Value\":".data l2
  let (v, l4) ← parseJString l3
  let l5 ← expectChars "\x7d".data l4
  some (⟨k, v⟩, l5)

/-- Parse the elements of a non-empty write-op array after the opening
bracket, consuming the closing bracket.  The fuel argument bounds the
number of elements; callers pass the input length. -/
def parseWriteOpsGo : Nat → List Char → Option (List WriteOp × List Char)
  | 0, _ => none
  | fuel + 1, l =>
    match parseWriteOp l with
    | none => none
    | some (w, r) =>
      match r with
      | ']' :: r2 => some ([w], r2)
      | ',' :: r2 => (parseWriteOpsGo fuel r2).map (fun p => (w :: p.1, p.2))
      | _ => none

/-- Parse a JSON value: a string, or an array of write-op objects. -/
def parseJValue (l : List Char) : Option (JVal × List Char) :=
  match l with
  | '"' :: _ => (parseJString l).map (fun p => (JVal.str p.1, p.2))
  | '[' :: r =>
    match r with
    | ']' :: r2 => some (JVal.arr [], r2)
    | _ => (parseWriteOpsGo r.length r).map (fun p => (JVal.arr p.1, p.2))
  | _ => none

/-- Parse one `"name":value` field. -/
def parseField (l : List Char) : Option ((String × JVal) × List Char) := do
  let (name, l2) ← parseJString l
  let l3 ← expectChars [':'] l2
  let (v, l4) ← parseJValue l3
  some ((name, v), l4)

/-- Parse the fields of a non-empty object after the opening brace,
consuming the closing brace.  Fuel as in `parseWriteOpsGo`. -/
def parseFieldsGo : Nat → List Char → Option (List (String × JVal) × List Char)
  | 0, _ => none
  | fuel + 1, l =>
    match parseField l with
    | none => none
    | some (f, r) =>
      match r with
      | '\x7d' :: r2 => some ([f], r2)
      | ',' :: r2 => (parseFieldsGo fuel r2).map (fun p => (f :: p.1, p.2))
      | _ => none

/-- Parse a whole single-object document into its field list. -/
def parseTopFields (l : List Char) : Option (List (String × JVal)) :=
  match l with
  | '\x7b' :: r =>
    match r with
    | ['\x7d'] => some []
    | _ =>
      match parseFieldsGo r.length r with
      | some (fs, []) => some fs
      | _ => none
  | _ => none

/-- The string value a struct field receives from a parsed field list
(zero value `""` when the field is absent or not a string). -/
def fieldStr (fs : List (String × JVal)) (name : String) : String :=
  match fs.lookup name with
  | some (JVal.str s) => s
  | _ => ""

/-- The write-set a struct field receives from a parsed field list
(zero value `[]` when absent or not an array). -/
def fieldArr (fs : List (String × JVal)) (name : String) : List WriteOp :=
  match fs.lookup name with
  | some (JVal.arr ws) => ws
  | _ => []

/-- `json.Unmarshal` into `internal/raft.Command` (canonical inputs):
unknown fields such as `write_set` are dropped. -/
def decodeRaftCommand (line : String) : Option RaftCommand :=
  (parseTopFields line.data).map
    (fun fs => ⟨fieldStr fs "op", fieldStr fs "key", fieldStr fs "value"⟩)

/-- `json.Unmarshal` into `internal/server.Command` (canonical inputs). -/
def decodeServerCommand (line : String) : Option ServerCommand :=
  (parseTopFields line.data).map
    (fun fs => ⟨fieldStr fs "op", fieldStr fs "key", fieldStr fs "value",
                fieldArr fs "write_set"⟩)

/-! ### Round-trip of the command encoding -/

theorem expect_append (pat : List Char) (l : List Char) :
    expectChars pat (pat ++ l) = some l := by
  induction pat with
  | nil => rfl
  | cons p ps ih => simp [expectChars, ih]

theorem encodeWriteOp_data (w : WriteOp) :
    (encodeWriteOp w).data = '\x7b' :: ("\"Key\":".data ++
      ((quoteString w.Key).data ++ (",\"Value\":".data ++
        ((quoteString w.Value).data ++ "\x7d".data)))) := by
  simp [encodeWriteOp]

theorem encodeWriteOps_data (ws : List WriteOp) (h : ws ≠ []) :
    ∃ t, (encodeWriteOps ws).data = '\x7b' :: t := by
  match ws with
  | [w] => exact ⟨_, encodeWriteOp_data w⟩
  | w :: w' :: ws' =>
    refine ⟨("\"Key\":".data ++ ((quoteString w.Key).data ++ (",\"Value\":".data ++
      ((quoteString w.Value).data ++ "\x7d".data)))) ++
      (",".data ++ (encodeWriteOps (w' :: ws')).data), ?_⟩
    show (encodeWriteOp w ++ "," ++ encodeWriteOps (w' :: ws')).data = _
    rw [String.data_append, String.data_append, encodeWriteOp_data w]
    simp

theorem length_le_encodeWriteOps (ws : List WriteOp) :
    ws.length ≤ (encodeWriteOps ws).data.length := by
  match ws with
  | [] => simp
  | [w] => rw [encodeWriteOps, encodeWriteOp_data w]; simp
  | w :: w' :: ws' =>
    have ih := length_le_encodeWriteOps (w' :: ws')
    show (w :: w' :: ws').length ≤
      (encodeWriteOp w ++ "," ++ encodeWriteOps (w' :: ws')).data.length
    rw [String.data_append, String.data_append, encodeWriteOp_data w]
    simp only [List.length_cons, List.length_append] at ih ⊢
    omega

theorem parseWriteOp_encode (w : WriteOp) (rest : List Char) :
    parseWriteOp ((encodeWriteOp w).data ++ rest) = some (w, rest) := by
  have harg : (encodeWriteOp w).data ++ rest =
      "\x7b\"Key\":".data ++ ((quoteString w.Key).data ++
        (",\"Value\":".data ++ ((quoteString w.Value).data ++
          ("\x7d".data ++ rest)))) := by
    rw [encodeWriteOp_data w]; simp
  simp only [parseWriteOp, harg, expect_append, parseJString_quote,
    Option.some_bind, Option.bind_eq_bind]

theorem parseWriteOpsGo_encode (ws : List WriteOp) (fuel : Nat) (rest : List Char)
    (hne : ws ≠ []) (hfuel : ws.length ≤ fuel) :
    parseWriteOpsGo fuel ((encodeWriteOps ws).data ++ ']' :: rest) =
      some (ws, rest) := by
  match ws, fuel with
  | [w], fuel + 1 =>
    rw [show encodeWriteOps [w] = encodeWriteOp w from rfl, parseWriteOpsGo,
      parseWriteOp_encode]
    rfl
  | w :: w' :: ws', fuel + 1 =>
    have ih := parseWriteOpsGo_encode (w' :: ws') fuel rest (by simp)
      (by simpa using hfuel)
    have harg : (encodeWriteOps (w :: w' :: ws')).data ++ ']' :: rest =
        (encodeWriteOp w).data ++
          (',' :: ((encodeWriteOps (w' :: ws')).data ++ ']' :: rest)) := by
      show (encodeWriteOp w ++ "," ++ encodeWriteOps (w' :: ws')).data ++
        ']' :: rest = _
      simp
    rw [harg, parseWriteOpsGo, parseWriteOp_encode]
    simp [ih]

theorem parseJValue_str (s : String) (rest : List Char) :
    parseJValue ((quoteString s).data ++ rest) = some (.str s, rest) := by
  have hd : (quoteString s).data ++ rest =
      '"' :: (escapeChars s.data ++ ['"'] ++ rest) := by
    simp [quoteString]
  rw [hd, parseJValue]
  rw [show ('"' : Char) :: (escapeChars s.data ++ ['"'] ++ rest) =
    (quoteString s).data ++ rest from by simp [quoteString]]
  rw [parseJString_quote]
  rfl

theorem parseJValue_arr (ws : List WriteOp) (rest : List Char) :
    parseJValue ((encodeWriteSet ws).data ++ rest) = some (.arr ws, rest) := by
  match ws with
  | [] =>
    rw [show (encodeWriteSet []).data ++ rest = '[' :: ']' :: rest from rfl]
    rfl
  | w :: ws' =>
    have hne : (w :: ws' : List WriteOp) ≠ [] := by simp
    obtain ⟨t, ht⟩ := encodeWriteOps_data (w :: ws') hne
    have hd : (encodeWriteSet (w :: ws')).data ++ rest =
        '[' :: ('\x7b' :: (t ++ ']' :: rest)) := by
      show ("[" ++ encodeWriteOps (w :: ws') ++ "]").data ++ rest = _
      rw [String.data_append, String.data_append, ht]
      simp
    rw [hd, parseJValue]
    have hgo := parseWriteOpsGo_encode (w :: ws')
      ('\x7b' :: (t ++ ']' :: rest)).length rest hne
      (by
        have hl := length_le_encodeWriteOps (w :: ws')
        rw [ht] at hl
        simp only [List.length_cons, List.length_append] at hl ⊢
        omega)
    rw [ht] at hgo
    rw [show (('\x7b' :: t : List Char) ++ ']' :: rest) =
      '\x7b' :: (t ++ ']' :: rest) from rfl] at hgo
    rw [hgo]
    rfl
    simp

theorem expect_colon (l : List Char) : expectChars [':'] (':' :: l) = some l := rfl

theorem encodeField_data (name : String) (v : JVal) :
    ∃ t, (encodeField name v).data = '"' :: t := by
  refine ⟨(escapeChars name.data ++ ['"']) ++ ((":" : String).data ++
    (match v with
     | JVal.str s => quoteString s
     | JVal.arr ws => encodeWriteSet ws).data), ?_⟩
  cases v <;> simp [encodeField, quoteString]

theorem encodeFieldList_data (fs : List (String × JVal)) (h : fs ≠ []) :
    ∃ t, (encodeFieldList fs).data = '"' :: t := by
  match fs with
  | [f] =>
    obtain ⟨t, ht⟩ := encodeField_data f.1 f.2
    exact ⟨t, by rw [encodeFieldList]; exact ht⟩
  | f :: f' :: fs' =>
    obtain ⟨t, ht⟩ := encodeField_data f.1 f.2
    refine ⟨t ++ ((",").data ++ (encodeFieldList (f' :: fs')).data), ?_⟩
    show (encodeField f.1 f.2 ++ "," ++ encodeFieldList (f' :: fs')).data = _
    rw [String.data_append, String.data_append, ht]
    simp

theorem length_le_encodeFieldList (fs : List (String × JVal)) :
    fs.length ≤ (encodeFieldList fs).data.length := by
  match fs with
  | [] => simp
  | [f] =>
    obtain ⟨t, ht⟩ := encodeField_data f.1 f.2
    rw [encodeFieldList, ht]; simp
  | f :: f' :: fs' =>
    have ih := length_le_encodeFieldList (f' :: fs')
    obtain ⟨t, ht⟩ := encodeField_data f.1 f.2
    show (f :: f' :: fs').length ≤
      (encodeField f.1 f.2 ++ "," ++ encodeFieldList (f' :: fs')).data.length
    rw [String.data_append, String.data_append, ht]
    simp only [List.length_cons, List.length_append] at ih ⊢
    omega

theorem parseField_encode (name : String) (v : JVal) (rest : List Char) :
    parseField ((encodeField name v).data ++ rest) = some ((name, v), rest) := by
  have harg : (encodeField name v).data ++ rest =
      (quoteString name).data ++ (':' :: ((match v with
        | JVal.str s => quoteString s
        | JVal.arr ws => encodeWriteSet ws).data ++ rest)) := by
    cases v <;> simp [encodeField]
  cases v with
  | str s =>
    simp only at harg
    simp only [parseField, harg, parseJString_quote, Option.some_bind,
      Option.bind_eq_bind, expect_colon, parseJValue_str]
  | arr ws =>
    simp only at harg
    simp only [parseField, harg, parseJString_quote, Option.some_bind,
      Option.bind_eq_bind, expect_colon, parseJValue_arr]

theorem parseFieldsGo_encode (fs : List (String × JVal)) (fuel : Nat)
    (rest : List Char) (hne : fs ≠ []) (hfuel : fs.length ≤ fuel) :
    parseFieldsGo fuel ((encodeFieldList fs).data ++ '\x7d' :: rest) =
      some (fs, rest) := by
  match fs, fuel with
  | [f], fuel + 1 =>
    rw [show encodeFieldList [f] = encodeField f.1 f.2 from rfl, parseFieldsGo,
      parseField_encode]
    rfl
  | f :: f' :: fs', fuel + 1 =>
    have ih := parseFieldsGo_encode (f' :: fs') fuel rest (by simp)
      (by simpa using hfuel)
    have harg : (encodeFieldList (f :: f' :: fs')).data ++ '\x7d' :: rest =
        (encodeField f.1 f.2).data ++
          (',' :: ((encodeFieldList (f' :: fs')).data ++ '\x7d' :: rest)) := by
      show (encodeField f.1 f.2 ++ "," ++ encodeFieldList (f' :: fs')).data ++
        '\x7d' :: rest = _
      simp
    rw [harg, parseFieldsGo, parseField_encode]
    simp [ih]

theorem parseTopFields_encode (fs : List (String × JVal)) (hne : fs ≠ []) :
    parseTopFields ('\x7b' :: ((encodeFieldList fs).data ++ ['\x7d'])) = some fs := by
  obtain ⟨t, ht⟩ := encodeFieldList_data fs hne
  have hgo := parseFieldsGo_encode fs
    ((encodeFieldList fs).data ++ '\x7d' :: []).length [] hne
    (by
      have := length_le_encodeFieldList fs
      simp only [List.length_append, List.length_cons, List.length_nil]
      omega)
  rw [parseTopFields, ht]
  rw [show ('"' :: t : List Char) ++ ['\x7d'] = '"' :: (t ++ ['\x7d']) from rfl]
  rw [show ('"' :: (t ++ ['\x7d']) : List Char) = (('"' :: t) ++ ['\x7d'] : List Char)
    from rfl, ← ht]
  rw [hgo]
  simp [ht]

theorem encodeRaftCommand_split (c : RaftCommand) :
    (encodeRaftCommand c).data =
      '\x7b' :: ((encodeFieldList (raftFields c)).data ++ ['\x7d']) := by
  simp [encodeRaftCommand]

theorem encodeServerCommand_split (c : ServerCommand) :
    (encodeServerCommand c).data =
      '\x7b' :: ((encodeFieldList (serverFields c)).data ++ ['\x7d']) := by
  simp [encodeServerCommand]

theorem decodeRaft_encodeRaft (c : RaftCommand) :
    decodeRaftCommand (encodeRaftCommand c) = some c := by
  have hne : raftFields c ≠ [] := by simp [raftFields]
  rw [decodeRaftCommand, encodeRaftCommand_split, parseTopFields_encode _ hne]
  obtain ⟨cop, ckey, cval⟩ := c
  by_cases hv : cval = "" <;>
    simp_all [raftFields, fieldStr, List.lookup]

theorem decodeServer_encodeServer (c : ServerCommand) :
    decodeServerCommand (encodeServerCommand c) = some c := by
  have hne : serverFields c ≠ [] := by simp [serverFields]
  rw [decodeServerCommand, encodeServerCommand_split, parseTopFields_encode _ hne]
  obtain ⟨cop, ckey, cval, cws⟩ := c
  by_cases hk : ckey = "" <;> by_cases hv : cval = "" <;>
    by_cases hw : cws = [] <;>
    simp_all [serverFields, fieldStr, fieldArr, List.lookup]

/-- `json.Unmarshal` of server-marshalled TX_COMMIT bytes into
`internal/raft.Command` keeps `op`/`key`/`value` and drops the unknown
`write_set` field. -/
theorem decodeRaft_encodeServer (c : ServerCommand) :
    decodeRaftCommand (encodeServerCommand c) = some ⟨c.Op, c.Key, c.Value⟩ := by
  have hne : serverFields c ≠ [] := by simp [serverFields]
  rw [decodeRaftCommand, encodeServerCommand_split, parseTopFields_encode _ hne]
  obtain ⟨cop, ckey, cval, cws⟩ := c
  by_cases hk : ckey = "" <;> by_cases hv : cval = "" <;>
    by_cases hw : cws = [] <;>
    simp_all [serverFields, fieldStr, List.lookup]

/-! ### Marshalled commands contain no record delimiter

The WAL delimits records with `'\n'`; `json.Marshal` escapes every control
character, so an encoded command never contains a raw `'\n'` (or `'\r'`,
which the line scanner would strip). -/

/-- A string that is safe as one WAL record: no newline, no carriage return. -/
def noNL (s : String) : Prop := '\n' ∉ s.data ∧ '\r' ∉ s.data

theorem noNL_append (a b : String) (ha : noNL a) (hb : noNL b) : noNL (a ++ b) := by
  obtain ⟨ha1, ha2⟩ := ha
  obtain ⟨hb1, hb2⟩ := hb
  constructor <;> simp_all [noNL]

theorem escChar_no_nl (c : Char) : '\n' ∉ escChar c ∧ '\r' ∉ escChar c := by
  rw [escChar]
  by_cases hq : c = '"'
  · simp [hq]
  by_cases hb : c = '\\'
  · simp [hq, hb]
  by_cases hn : c = '\n'
  · simp [hq, hb, hn]
  by_cases hr : c = '\r'
  · simp [hq, hb, hn, hr]
  by_cases ht : c = '\t'
  · simp [hq, hb, hn, hr, ht]
  by_cases hu : c.toNat < 32 ∨ c = '<' ∨ c = '>' ∨ c = '&' ∨
      c.toNat = 0x2028 ∨ c.toNat = 0x2029
  · rw [if_neg hq, if_neg hb, if_neg hn, if_neg hr, if_neg ht, if_pos hu]
    have e1 := hexDigitChar_ne (c.toNat / 4096 % 16) (Nat.mod_lt _ (by omega))
    have e2 := hexDigitChar_ne (c.toNat / 256 % 16) (Nat.mod_lt _ (by omega))
    have e3 := hexDigitChar_ne (c.toNat / 16 % 16) (Nat.mod_lt _ (by omega))
    have e4 := hexDigitChar_ne (c.toNat % 16) (Nat.mod_lt _ (by omega))
    constructor <;> intro hmem <;>
      simp only [uEscape, List.mem_cons, List.not_mem_nil, or_false] at hmem <;>
      rcases hmem with h | h | h | h | h | h <;>
      first
        | exact absurd h (by decide)
        | exact e1.1 h.symm
        | exact e1.2 h.symm
        | exact e2.1 h.symm
        | exact e2.2 h.symm
        | exact e3.1 h.symm
        | exact e3.2 h.symm
        | exact e4.1 h.symm
        | exact e4.2 h.symm
  · rw [if_neg hq, if_neg hb, if_neg hn, if_neg hr, if_neg ht, if_neg hu]
    constructor <;> simp <;> intro h <;> subst h <;> simp_all

theorem escapeChars_no_nl (l : List Char) :
    '\n' ∉ escapeChars l ∧ '\r' ∉ escapeChars l := by
  induction l with
  | nil => simp [escapeChars]
  | cons c cs ih =>
    have hc := escChar_no_nl c
    rw [escapeChars]
    constructor <;> simp_all

theorem noNL_quoteString (s : String) : noNL (quoteString s) := by
  have h := escapeChars_no_nl s.data
  constructor <;> simp [quoteString] <;> simp_all

theorem noNL_encodeWriteOp (w : WriteOp) : noNL (encodeWriteOp w) := by
  rw [encodeWriteOp]
  refine noNL_append _ _ (noNL_append _ _ (noNL_append _ _ (noNL_append _ _
    ?_ (noNL_quoteString _)) ?_) (noNL_quoteString _)) ?_ <;>
    constructor <;> decide

theorem noNL_encodeWriteOps (ws : List WriteOp) : noNL (encodeWriteOps ws) := by
  match ws with
  | [] => constructor <;> decide
  | [w] => rw [encodeWriteOps]; exact noNL_encodeWriteOp w
  | w :: w' :: ws' =>
    show noNL (encodeWriteOp w ++ "," ++ encodeWriteOps (w' :: ws'))
    exact noNL_append _ _ (noNL_append _ _ (noNL_encodeWriteOp w)
      (by constructor <;> decide)) (noNL_encodeWriteOps (w' :: ws'))

theorem noNL_encodeField (name : String) (v : JVal) : noNL (encodeField name v) := by
  cases v with
  | str s =>
    show noNL (quoteString name ++ ":" ++ quoteString s)
    exact noNL_append _ _ (noNL_append _ _ (noNL_quoteString _)
      (by constructor <;> decide)) (noNL_quoteString s)
  | arr ws =>
    show noNL (quoteString name ++ ":" ++ ("[" ++ encodeWriteOps ws ++ "]"))
    exact noNL_append _ _ (noNL_append _ _ (noNL_quoteString _)
      (by constructor <;> decide))
      (noNL_append _ _ (noNL_append _ _ (by constructor <;> decide)
        (noNL_encodeWriteOps ws)) (by constructor <;> decide))

theorem noNL_encodeFieldList (fs : List (String × JVal)) :
    noNL (encodeFieldList fs) := by
  match fs with
  | [] => constructor <;> decide
  | [f] => rw [encodeFieldList]; exact noNL_encodeField f.1 f.2
  | f :: f' :: fs' =>
    show noNL (encodeField f.1 f.2 ++ "," ++ encodeFieldList (f' :: fs'))
    exact noNL_append _ _ (noNL_append _ _ (noNL_encodeField f.1 f.2)
      (by constructor <;> decide)) (noNL_encodeFieldList (f' :: fs'))

theorem noNL_encodeRaftCommand (c : RaftCommand) : noNL (encodeRaftCommand c) := by
  rw [encodeRaftCommand]
  exact noNL_append _ _ (noNL_append _ _ (by constructor <;> decide)
    (noNL_encodeFieldList _)) (by constructor <;> decide)

theorem noNL_encodeServerCommand (c : ServerCommand) :
    noNL (encodeServerCommand c) := by
  rw [encodeServerCommand]
  exact noNL_append _ _ (noNL_append _ _ (by constructor <;> decide)
    (noNL_encodeFieldList _)) (by constructor <;> decide)

/-! ## Line scanning (models `bufio.Scanner` with `bufio.ScanLines`, as
used by `persistence.Replay`): tokens are separated by `'\n'`, a trailing
`'\r'` is stripped from each token, a final token without a trailing
newline is still returned, and the empty file yields no tokens. -/

/-- Split a character list at every newline (the separators are consumed;
a trailing newline produces a final empty component). -/
def splitNL : List Char → List (List Char)
  | [] => [[]]
  | c :: rest =>
    if c = '\n' then [] :: splitNL rest
    else
      match splitNL rest with
      | [] => [[c]]
      | t :: ts => (c :: t) :: ts

/-- Strip one trailing carriage return, as `bufio.ScanLines` does. -/
def dropCR (l : List Char) : List Char :=
  if l.getLast? = some '\r' then l.dropLast else l

/-- The token sequence `bufio.Scanner`/`ScanLines` produces for a file. -/
def scanLines (s : String) : List String :=
  let parts := splitNL s.data
  let parts := if parts.getLast? = some [] then parts.dropLast else parts
  parts.map (fun t => String.mk (dropCR t))

/-- A file consisting of the given records, each terminated by `'\n'` —
exactly the layout `WAL.WriteCommand` appends. -/
def joinLines : List String → String
  | [] => ""
  | l :: ls => l ++ "\n" ++ joinLines ls

theorem splitNL_ne_nil (l : List Char) : splitNL l ≠ [] := by
  match l with
  | [] => simp [splitNL]
  | c :: rest =>
    rw [splitNL]
    by_cases h : c = '\n'
    · simp [h]
    · simp only [if_neg h]
      match hs : splitNL rest with
      | [] => simp
      | t :: ts => simp

theorem splitNL_append_line (l1 rest : List Char) (h : '\n' ∉ l1) :
    splitNL (l1 ++ '\n' :: rest) = l1 :: splitNL rest := by
  induction l1 with
  | nil => simp [splitNL]
  | cons c cs ih =>
    have hc : c ≠ '\n' := fun hc => h (by simp [hc])
    have ihh := ih (fun hm => h (by simp [hm]))
    rw [List.cons_append, splitNL, if_neg hc, ihh]

theorem splitNL_joinLines (ls : List String) (h : ∀ l ∈ ls, '\n' ∉ l.data) :
    splitNL (joinLines ls).data = (ls.map String.data) ++ [[]] := by
  induction ls with
  | nil => simp [joinLines, splitNL]
  | cons l ls ih =>
    rw [joinLines]
    rw [show (l ++ "\n" ++ joinLines ls).data =
      l.data ++ '\n' :: (joinLines ls).data from by simp]
    rw [splitNL_append_line _ _ (h l (by simp)), ih (fun x hx => h x (by simp [hx]))]
    simp

theorem dropCR_no_cr (l : List Char) (h : '\r' ∉ l) : dropCR l = l := by
  rw [dropCR]
  by_cases hl : l.getLast? = some '\r'
  · exact absurd (List.mem_of_getLast?_eq_some hl) h
  · rw [if_neg hl]

theorem scanLines_joinLines (ls : List String)
    (h : ∀ l ∈ ls, '\n' ∉ l.data ∧ '\r' ∉ l.data) :
    scanLines (joinLines ls) = ls := by
  rw [scanLines]
  simp only [splitNL_joinLines ls (fun l hl => (h l hl).1), List.getLast?_concat,
    reduceIte, List.dropLast_concat, List.map_map]
  have hmap : ∀ l ∈ ls, ((fun t => String.mk (dropCR t)) ∘ String.data) l = id l := by
    intro l hl
    simp only [Function.comp_apply, id_eq]
    rw [dropCR_no_cr _ (h l hl).2]
  rw [List.map_congr_left hmap, List.map_id]

/-! ## VersionedStore (`internal/store`)

The Go `Store` is a mutex-guarded `map[string]VersionedValue`; the
sequential semantics of its three operations is embedded here.  `Version`
is a Go `uint64`, so the increment in `Set` wraps modulo `2^64`. -/

/-- `store.VersionedValue`. -/
structure VersionedValue where
  Value : String
  Version : Nat
deriving Repr, DecidableEq

/-- Modulus of Go's `uint64`. -/
def uint64Mod : Nat := 2 ^ 64

/-- The store contents: a finite map from keys to versioned values. -/
def Store := String → Option VersionedValue

/-- `store.NewStore()`: the empty map. -/
def Store.NewStore : Store := fun _ => none

/-- `Store.Get`: returns the value and a found flag; a missing key yields
Go's zero value `VersionedValue{"", 0}` and `false`. -/
def Store.Get (s : Store) (key : String) : VersionedValue × Bool :=
  match s key with
  | some v => (v, true)
  | none => (⟨"", 0⟩, false)

/-- `Store.Set`: insert or overwrite, incrementing the version of the
current entry (the zero value's version 0 when absent). -/
def Store.Set (s : Store) (key value : String) : Store :=
  fun k =>
    if k = key then some ⟨value, ((s.Get key).1.Version + 1) % uint64Mod⟩
    else s k

/-- `Store.Delete`: remove the entry entirely. -/
def Store.Delete (s : Store) (key : String) : Store :=
  fun k => if k = key then none else s k

/-! ## WriteAheadLog (`internal/persistence`)

The Go `WAL` owns an append-mode file handle; `WriteCommand` marshals the
command, appends it plus a `'\n'` delimiter, and `Sync`s.  The embedding
carries the file contents plus fault flags standing for the two I/O calls
that can fail (`File.Write` and `File.Sync`); `json.Marshal` cannot fail
on these command structs, so serialization is total here. -/

structure WAL where
  contents : String
  writeFails : Bool
  syncFails : Bool
deriving Repr, DecidableEq

/-- The I/O errors `WriteCommand` can return. -/
inductive WALError where
  | writeErr
  | syncErr
deriving Repr, DecidableEq

/-- `persistence.NewWAL` on a fresh path with a healthy disk. -/
def WAL.NewWAL : WAL := ⟨"", false, false⟩

/-- The record-appending core of `WAL.WriteCommand`: write the marshalled
bytes plus the `'\n'` delimiter, then `Sync`; the first failing step's
error is returned.  A failed `Write` appends nothing; a failed `Sync`
leaves the bytes written but unflushed. -/
def WAL.WriteRecord (w : WAL) (data : String) : Option WALError × WAL :=
  if w.writeFails then (some .writeErr, w)
  else
    let w' : WAL := { w with contents := w.contents ++ data ++ "\n" }
    if w.syncFails then (some .syncErr, w') else (none, w')

/-- `WAL.WriteCommand` on a marshalled `server.Command`. -/
def WAL.WriteCommand (w : WAL) (cmd : ServerCommand) : Option WALError × WAL :=
  w.WriteRecord (encodeServerCommand cmd)

/-- `WAL.WriteCommand` on a marshalled `raft.Command` (the FSM's use). -/
def WAL.WriteCommandRaft (w : WAL) (cmd : RaftCommand) : Option WALError × WAL :=
  w.WriteRecord (encodeRaftCommand cmd)

/-- Run an apply function over a list of records in order, stopping at and
propagating the first error — the loop body of `persistence.Replay`. -/
def replayLines {σ ε : Type} (lines : List String)
    (applyFunc : String → σ → Except ε σ) (st : σ) : Except ε σ :=
  match lines with
  | [] => .ok st
  | l :: ls =>
    match applyFunc l st with
    | .error e => .error e
    | .ok st' => replayLines ls applyFunc st'

/-- `persistence.Replay`: `none` stands for a missing file
(`os.IsNotExist`), which is a no-op success; otherwise the scanner's
tokens are fed to `applyFunc` in file order.  The apply function's state
threading models the closure's effects on the store. -/
def Replay {σ ε : Type} (file : Option String)
    (applyFunc : String → σ → Except ε σ) (st : σ) : Except ε σ :=
  match file with
  | none => .ok st
  | some s => replayLines (scanLines s) applyFunc st

/-! ## FSM (`internal/raft/fsm.go`)

`FSM.Apply` deserializes the log entry, appends it to the WAL, then
dispatches on `cmd.Op`; unmarshal failure, WAL failure and an
unrecognized op all `log.Panicf`.  `ApplyOutcome.panicked` stands for the
panic (the node halts); the state paired with it is what the process had
mutated before panicking. -/

structure FSMState where
  wal : WAL
  store : Store

inductive ApplyOutcome where
  | ok
  | panicked
deriving Repr, DecidableEq

/-- The store mutation `FSM.Apply` performs for a command: `SET` →
`store.Set`, `DELETE` → `store.Delete`, anything else leaves the store
untouched (the FSM panics on the default branch before any mutation). -/
def dispatchStore (cmd : RaftCommand) (st : Store) : Store :=
  if cmd.Op = "SET" then st.Set cmd.Key cmd.Value
  else if cmd.Op = "DELETE" then st.Delete cmd.Key
  else st

/-- `FSM.Apply` after deserialization: WAL append first (panic on its
error), then the op dispatch (panic on an unrecognized op). -/
def FSM.Apply (s : FSMState) (cmd : RaftCommand) : ApplyOutcome × FSMState :=
  match s.wal.WriteCommandRaft cmd with
  | (some _, w') => (.panicked, { s with wal := w' })
  | (none, w') =>
    if cmd.Op = "SET" then (.ok, ⟨w', s.store.Set cmd.Key cmd.Value⟩)
    else if cmd.Op = "DELETE" then (.ok, ⟨w', s.store.Delete cmd.Key⟩)
    else (.panicked, ⟨w', s.store⟩)

/-- `FSM.Apply` from the raw log-entry bytes, including the
`json.Unmarshal` step (panic on a corrupt entry). -/
def FSM.ApplyBytes (s : FSMState) (data : String) : ApplyOutcome × FSMState :=
  match decodeRaftCommand data with
  | none => (.panicked, s)
  | some cmd => FSM.Apply s cmd

/-- Deliver a sequence of committed commands to `FSM.Apply` in order, as
the consensus layer does; a panic kills the process, so no later command
is applied. -/
def FSM.ApplyAll (s : FSMState) : List RaftCommand → ApplyOutcome × FSMState
  | [] => (.ok, s)
  | c :: cs =>
    match FSM.Apply s c with
    | (.ok, s') => FSM.ApplyAll s' cs
    | (.panicked, s') => (.panicked, s')

/-- The externally observable states during one `FSM.Apply` call, in
program order: entry, after the WAL append, after the dispatch.  When the
WAL append fails the node panics and the dispatch never runs. -/
def FSM.ApplyTrace (s : FSMState) (cmd : RaftCommand) : List FSMState :=
  match s.wal.WriteCommandRaft cmd with
  | (some _, w') => [s, { s with wal := w' }]
  | (none, w') => [s, { s with wal := w' }, (FSM.Apply s cmd).2]

/-! ## Startup replay (`cmd/heliosdb/main.go`)

The replay closure unmarshals each WAL record into a `raft.Command`
(returning the unmarshal error), then dispatches on `SET`/`DELETE` and
silently ignores every other op. -/

/-- The error the startup replay closure can produce. -/
inductive ReplayError where
  | unmarshalErr
deriving Repr, DecidableEq

/-- The `applyFunc` closure `main` passes to `persistence.Replay`. -/
def mainReplayApply (line : String) (st : Store) : Except ReplayError Store :=
  match decodeRaftCommand line with
  | none => .error .unmarshalErr
  | some cmd =>
    .ok (if cmd.Op = "SET" then st.Set cmd.Key cmd.Value
         else if cmd.Op = "DELETE" then st.Delete cmd.Key
         else st)

/-- The state a fresh node starts from: `store.NewStore()` and a fresh
WAL on a healthy disk. -/
def initialFSMState : FSMState := ⟨WAL.NewWAL, Store.NewStore⟩

/-- Fold the store effect of a record list, skipping undecodable lines —
the store reconstructed from (a prefix of) WAL records. -/
def storeOfLines (lines : List String) : Store :=
  lines.foldl
    (fun st l =>
      match decodeRaftCommand l with
      | some cmd => dispatchStore cmd st
      | none => st)
    Store.NewStore

/-! ## Supporting lemmas about the WAL file layout and replay -/

/-- The WAL file is well-formed with record list `ls`: the contents are
exactly the records in order, newline-terminated, and no record contains
a `'\n'` or `'\r'` of its own. -/
def WAL.wf (w : WAL) (ls : List String) : Prop :=
  (∀ l ∈ ls, '\n' ∉ l.data ∧ '\r' ∉ l.data) ∧ w.contents = joinLines ls

theorem WAL.wf_scanLines {w : WAL} {ls : List String} (h : w.wf ls) :
    scanLines w.contents = ls := by
  rw [h.2, scanLines_joinLines ls h.1]

theorem joinLines_append (ls1 ls2 : List String) :
    joinLines (ls1 ++ ls2) = joinLines ls1 ++ joinLines ls2 := by
  induction ls1 with
  | nil => simp [joinLines]
  | cons l ls ih =>
    show l ++ "\n" ++ joinLines (ls ++ ls2) = l ++ "\n" ++ joinLines ls ++ joinLines ls2
    rw [ih]
    exact (String.append_assoc _ _ _).symm

theorem WAL.WriteRecord_ok {w : WAL} (data : String)
    (hw : w.writeFails = false) (hs : w.syncFails = false) :
    w.WriteRecord data =
      (none, { w with contents := w.contents ++ data ++ "\n" }) := by
  rw [WAL.WriteRecord, hw, hs]
  rfl

theorem WAL.wf_after_write {w : WAL} {ls : List String} (b1 b2 : Bool)
    (data : String) (h : w.wf ls)
    (hd : '\n' ∉ data.data ∧ '\r' ∉ data.data) :
    WAL.mk (w.contents ++ data ++ "\n") b1 b2 |>.wf (ls ++ [data]) := by
  constructor
  · intro l hl
    rcases List.mem_append.mp hl with hl | hl
    · exact h.1 l hl
    · simp only [List.mem_singleton] at hl
      subst hl
      exact hd
  · show w.contents ++ data ++ "\n" = joinLines (ls ++ [data])
    rw [joinLines_append, h.2, String.append_assoc]
    simp [joinLines]

/-- A clean (no-fault) run of `FSM.ApplyAll` over recognized commands:
every command is appended to the WAL in order and the store effect is the
fold of the per-command dispatch. -/
theorem FSM.ApplyAll_clean (cmds : List RaftCommand) (w : WAL) (st : Store)
    (hw : w.writeFails = false) (hs : w.syncFails = false)
    (hops : ∀ c ∈ cmds, c.Op = "SET" ∨ c.Op = "DELETE") :
    FSM.ApplyAll ⟨w, st⟩ cmds =
      (.ok, ⟨⟨w.contents ++ joinLines (cmds.map encodeRaftCommand),
              w.writeFails, w.syncFails⟩,
             cmds.foldl (fun s c => dispatchStore c s) st⟩) := by
  induction cmds generalizing w st with
  | nil =>
    simp only [FSM.ApplyAll, joinLines, List.map_nil, List.foldl_nil,
      String.append_empty]
  | cons c cs ih =>
    have hop := hops c (by simp)
    have happly : FSM.Apply ⟨w, st⟩ c =
        (.ok, ⟨⟨w.contents ++ encodeRaftCommand c ++ "\n", w.writeFails,
                w.syncFails⟩, dispatchStore c st⟩) := by
      rw [FSM.Apply, WAL.WriteCommandRaft]
      show (match (WAL.WriteRecord ⟨w.contents, w.writeFails, w.syncFails⟩
        (encodeRaftCommand c)) with
        | (some _, w') => _
        | (none, w') => _) = _
      rw [show (⟨w.contents, w.writeFails, w.syncFails⟩ : WAL) = w from rfl,
        WAL.WriteRecord_ok _ hw hs]
      rcases hop with hop | hop <;> simp [hop, dispatchStore]
    rw [FSM.ApplyAll, happly]
    show FSM.ApplyAll ⟨⟨w.contents ++ encodeRaftCommand c ++ "\n",
      w.writeFails, w.syncFails⟩, dispatchStore c st⟩ cs = _
    rw [ih ⟨w.contents ++ encodeRaftCommand c ++ "\n", w.writeFails, w.syncFails⟩
      (dispatchStore c st) hw hs (fun x hx => hops x (by simp [hx]))]
    simp only [List.map_cons, joinLines, List.foldl_cons]
    simp [String.append_assoc]

/-- Replaying the encoded records of recognized commands through the
startup closure folds the same per-command dispatch. -/
theorem replayLines_mainReplayApply (cmds : List RaftCommand) (st : Store) :
    replayLines (cmds.map encodeRaftCommand) mainReplayApply st =
      .ok (cmds.foldl (fun s c => dispatchStore c s) st) := by
  induction cmds generalizing st with
  | nil => simp [replayLines]
  | cons c cs ih =>
    rw [List.map_cons, replayLines, mainReplayApply, decodeRaft_encodeRaft c]
    show replayLines (cs.map encodeRaftCommand) mainReplayApply _ = _
    rw [ih]
    simp [dispatchStore]

/-- `FSM.Apply`'s default branch: any op other than `SET`/`DELETE` reaches
`log.Panicf` after the WAL step and the store is left untouched. -/
theorem fsm_apply_default_branch (cmd : RaftCommand) (s : FSMState)
    (h1 : cmd.Op ≠ "SET") (h2 : cmd.Op ≠ "DELETE") :
    (FSM.Apply s cmd).1 = .panicked ∧ (FSM.Apply s cmd).2.store = s.store := by
  rw [FSM.Apply, WAL.WriteCommandRaft, WAL.WriteRecord]
  cases hw : s.wal.writeFails <;> cases hs : s.wal.syncFails <;>
    simp [h1, h2]

/-- All-successes fold of an apply function, used to phrase the success
and first-error prefixes of a replay. -/
def foldOk {σ ε : Type} (f : String → σ → Except ε σ) :
    List String → σ → Option σ
  | [], st => some st
  | l :: ls, st =>
    match f l st with
    | .ok st' => foldOk f ls st'
    | .error _ => none

theorem replayLines_of_foldOk {σ ε : Type} (f : String → σ → Except ε σ)
    (ls : List String) (st st' : σ) (h : foldOk f ls st = some st') :
    replayLines ls f st = .ok st' := by
  induction ls generalizing st with
  | nil =>
    rw [foldOk] at h
    cases h
    rfl
  | cons l ls ih =>
    rw [foldOk] at h
    rw [replayLines]
    cases hf : f l st with
    | ok st1 => rw [hf] at h; exact ih st1 h
    | error e => rw [hf] at h; cases h

theorem replayLines_first_error {σ ε : Type} (f : String → σ → Except ε σ)
    (pre : List String) (x : String) (post : List String) (st st' : σ) (e : ε)
    (hpre : foldOk f pre st = some st') (hx : f x st' = .error e) :
    replayLines (pre ++ x :: post) f st = .error e := by
  induction pre generalizing st with
  | nil =>
    rw [foldOk] at hpre
    cases hpre
    rw [List.nil_append, replayLines, hx]
  | cons l ls ih =>
    rw [foldOk] at hpre
    rw [List.cons_append, replayLines]
    cases hf : f l st with
    | ok st1 => rw [hf] at hpre; exact ih st1 hpre
    | error e' => rw [hf] at hpre; cases hpre

/-- `handleTxCommit`'s append path for a whole command sequence on a
healthy fresh WAL, i.e. repeated `WAL.WriteCommand`. -/
def appendAll (w : WAL) (cmds : List ServerCommand) : WAL :=
  cmds.foldl (fun w c => (w.WriteCommand c).2) w

theorem appendAll_clean (cmds : List ServerCommand) (w : WAL)
    (hw : w.writeFails = false) (hs : w.syncFails = false) :
    appendAll w cmds =
      ⟨w.contents ++ joinLines (cmds.map encodeServerCommand),
       w.writeFails, w.syncFails⟩ := by
  induction cmds generalizing w with
  | nil =>
    simp only [appendAll, List.foldl_nil, List.map_nil, joinLines,
      String.append_empty]
  | cons c cs ih =>
    show appendAll ((w.WriteCommand c).2) cs = _
    rw [WAL.WriteCommand, WAL.WriteRecord_ok _ hw hs]
    rw [ih ⟨w.contents ++ encodeServerCommand c ++ "\n", w.writeFails,
      w.syncFails⟩ hw hs]
    simp [joinLines, String.append_assoc]

/-- A replay apply function that just collects the decoded commands, to
observe what `Replay` feeds back. -/
def collectCmd (line : String) (acc : List ServerCommand) :
    Except ReplayError (List ServerCommand) :=
  match decodeServerCommand line with
  | some c => .ok (acc ++ [c])
  | none => .error .unmarshalErr

theorem replayLines_collectCmd (cmds : List ServerCommand)
    (acc : List ServerCommand) :
    replayLines (cmds.map encodeServerCommand) collectCmd acc =
      .ok (acc ++ cmds) := by
  induction cmds generalizing acc with
  | nil => simp [replayLines]
  | cons c cs ih =>
    rw [List.map_cons, replayLines, collectCmd, decodeServer_encodeServer c]
    show replayLines (cs.map encodeServerCommand) collectCmd (acc ++ [c]) = _
    rw [ih (acc ++ [c])]
    simp

theorem storeOfLines_append_encode (ls : List String) (cmd : RaftCommand) :
    storeOfLines (ls ++ [encodeRaftCommand cmd]) =
      dispatchStore cmd (storeOfLines ls) := by
  rw [storeOfLines, List.foldl_append]
  show (match decodeRaftCommand (encodeRaftCommand cmd) with
        | some cmd => dispatchStore cmd (storeOfLines ls)
        | none => storeOfLines ls) = _
  rw [decodeRaft_encodeRaft cmd]

/-! ## Claim theorems -/

/-- C1: evaluation of `FSM.Apply` at the failing input.  The claim says the
OCC validating step runs inside `Apply` for every TX_COMMIT and rejects a
stale read-set deterministically; in the code `FSM.Apply` has no TX_COMMIT
case at all — the command (whose logged form does not even carry the
read-set) falls into the default branch and panics after the WAL append,
performing no validation and applying no write.  Here the store holds
`"x"` at version 2 while the transaction observed version 1; `Apply`
panics and leaves `"x"` untouched instead of computing a verdict. -/
theorem c1_txcommit_no_occ_validation :
    (FSM.ApplyBytes ⟨WAL.NewWAL, (Store.NewStore.Set "x" "v1").Set "x" "v2"⟩
        (encodeServerCommand ⟨"TX_COMMIT", "", "", [⟨"x", "new"⟩]⟩)).1 =
      .panicked ∧
    (FSM.ApplyBytes ⟨WAL.NewWAL, (Store.NewStore.Set "x" "v1").Set "x" "v2"⟩
        (encodeServerCommand ⟨"TX_COMMIT", "", "", [⟨"x", "new"⟩]⟩)).2.store.Get
        "x" =
      ((Store.NewStore.Set "x" "v1").Set "x" "v2").Get "x" := by
  have hdec := decodeRaft_encodeServer ⟨"TX_COMMIT", "", "", [⟨"x", "new"⟩]⟩
  rw [FSM.ApplyBytes, hdec]
  exact ⟨rfl, rfl⟩

/-- C2: evaluation of `FSM.Apply` at the failing input.  The claim says a
TX_COMMIT's write_set is applied through `Apply` as an atomic batch; in
the code the raft-side `Command` has no write_set field (unmarshalling
drops it) and `Apply` panics on the TX_COMMIT op, so the batch is never
applied at all: after the call neither `"a"` nor `"b"` exists and the
node has panicked instead of returning. -/
theorem c2_txcommit_write_set_never_applied :
    (FSM.ApplyBytes initialFSMState
        (encodeServerCommand ⟨"TX_COMMIT", "", "", [⟨"a", "1"⟩, ⟨"b", "2"⟩]⟩)).1 =
      .panicked ∧
    (FSM.ApplyBytes initialFSMState
        (encodeServerCommand ⟨"TX_COMMIT", "", "",
          [⟨"a", "1"⟩, ⟨"b", "2"⟩]⟩)).2.store.Get "a" = (⟨"", 0⟩, false) ∧
    (FSM.ApplyBytes initialFSMState
        (encodeServerCommand ⟨"TX_COMMIT", "", "",
          [⟨"a", "1"⟩, ⟨"b", "2"⟩]⟩)).2.store.Get "b" = (⟨"", 0⟩, false) := by
  have hdec := decodeRaft_encodeServer ⟨"TX_COMMIT", "", "", [⟨"a", "1"⟩, ⟨"b", "2"⟩]⟩
  rw [FSM.ApplyBytes, hdec]
  exact ⟨rfl, rfl, rfl⟩

/-- C3: `Store.Set` stores the value at the previous version plus one
(version of an absent key is the zero value 0, so a first `Set` yields 1),
`Store.Delete` removes the entry entirely so `Get` reports not-found, and
a `Set` after a `Delete` restarts the version at 1.  The hypothesis keeps
the `uint64` increment below its wrap-around point. -/
theorem c3_store_version_semantics (s : Store) (key value : String)
    (h : (s.Get key).1.Version + 1 < uint64Mod) :
    (s.Set key value).Get key = (⟨value, (s.Get key).1.Version + 1⟩, true) ∧
    (s.Delete key).Get key = (⟨"", 0⟩, false) ∧
    ((s.Delete key).Set key value).Get key = (⟨value, 1⟩, true) := by
  have h1 : (0 + 1) % uint64Mod = 0 + 1 :=
    Nat.mod_eq_of_lt (by rw [uint64Mod]; omega)
  refine ⟨?_, ?_, ?_⟩
  · have hmod := Nat.mod_eq_of_lt h
    simp only [Store.Get] at hmod
    simp [Store.Set, Store.Get, hmod]
  · simp [Store.Delete, Store.Get]
  · simp [Store.Set, Store.Get, Store.Delete, h1]

theorem c3_store_version_semantics_witness :
    ((Store.NewStore.Set "mykey" "hello").Get "mykey" =
      (⟨"hello", (Store.NewStore.Get "mykey").1.Version + 1⟩, true)) ∧
    ((Store.NewStore.Delete "mykey").Get "mykey" = (⟨"", 0⟩, false)) ∧
    (((Store.NewStore.Delete "mykey").Set "mykey" "hello").Get "mykey" =
      (⟨"hello", 1⟩, true)) :=
  c3_store_version_semantics Store.NewStore "mykey" "hello"
    (by show 0 + 1 < uint64Mod; rw [uint64Mod]; omega)

/-- C4: in every `FSM.Apply` call the command is appended to the WAL
before any store mutation — at every observable point of the call the
store's contents are the replay of a prefix of the WAL's records (so the
WAL is a superset of what the store reflects), and the WAL only grows. -/
def walBeforeStoreProp (cmd : RaftCommand) (s : FSMState) : Prop :=
  ∀ t ∈ FSM.ApplyTrace s cmd,
    (∃ p, p <+: scanLines t.wal.contents ∧ t.store = storeOfLines p) ∧
    scanLines s.wal.contents <+: scanLines t.wal.contents

/-- C4: provided the node enters `Apply` consistent (its store is the
replay of its well-formed WAL), every intermediate state of the call —
entry, after the WAL append, after the dispatch — has a store equal to
the replay of a prefix of the current WAL records; the command is logged
before it mutates anything. -/
theorem c4_wal_append_before_mutation (cmd : RaftCommand) (s : FSMState)
    (ls : List String) (hwf : s.wal.wf ls) (hst : s.store = storeOfLines ls) :
    walBeforeStoreProp cmd s := by
  have hsc : scanLines s.wal.contents = ls := WAL.wf_scanLines hwf
  have hbase : ∀ t : FSMState, t = s →
      (∃ p, p <+: scanLines t.wal.contents ∧ t.store = storeOfLines p) ∧
      scanLines s.wal.contents <+: scanLines t.wal.contents := by
    intro t ht
    subst ht
    exact ⟨⟨ls, by rw [hsc], hst⟩, List.prefix_refl _⟩
  have hwal' : ∀ b1 b2 : Bool,
      scanLines (s.wal.contents ++ encodeRaftCommand cmd ++ "\n") =
        ls ++ [encodeRaftCommand cmd] := by
    intro b1 b2
    exact WAL.wf_scanLines
      (WAL.wf_after_write b1 b2 _ hwf (noNL_encodeRaftCommand cmd))
  intro t ht
  rw [FSM.ApplyTrace] at ht
  cases hw : s.wal.writeFails with
  | true =>
    have hwr : s.wal.WriteCommandRaft cmd = (some .writeErr, s.wal) := by
      rw [WAL.WriteCommandRaft, WAL.WriteRecord, if_pos hw]
    rw [hwr] at ht
    simp only [List.mem_cons, List.not_mem_nil, or_false] at ht
    rcases ht with ht | ht
    · exact hbase t ht
    · subst ht
      exact hbase { s with wal := s.wal } rfl
  | false =>
    cases hsy : s.wal.syncFails with
    | true =>
      have hwr : s.wal.WriteCommandRaft cmd = (some .syncErr,
          { s.wal with contents := s.wal.contents ++ encodeRaftCommand cmd ++ "\n" }) := by
        rw [WAL.WriteCommandRaft, WAL.WriteRecord, if_neg (by rw [hw]; simp),
          if_pos hsy]
      rw [hwr] at ht
      simp only [List.mem_cons, List.not_mem_nil, or_false] at ht
      rcases ht with ht | ht
      · exact hbase t ht
      · subst ht
        refine ⟨⟨ls, ?_, hst⟩, ?_⟩
        · show ls <+: scanLines (s.wal.contents ++ encodeRaftCommand cmd ++ "\n")
          rw [hwal' s.wal.writeFails s.wal.syncFails]
          exact ⟨[encodeRaftCommand cmd], rfl⟩
        · show scanLines s.wal.contents <+:
            scanLines (s.wal.contents ++ encodeRaftCommand cmd ++ "\n")
          rw [hsc, hwal' s.wal.writeFails s.wal.syncFails]
          exact ⟨[encodeRaftCommand cmd], rfl⟩
    | false =>
      have hwr : s.wal.WriteCommandRaft cmd = (none,
          { s.wal with contents := s.wal.contents ++ encodeRaftCommand cmd ++ "\n" }) := by
        rw [WAL.WriteCommandRaft, WAL.WriteRecord, if_neg (by rw [hw]; simp),
          if_neg (by rw [hsy]; simp)]
      have hlines : scanLines (s.wal.contents ++ encodeRaftCommand cmd ++ "\n")
          = ls ++ [encodeRaftCommand cmd] := hwal' false false
      have hgrow : scanLines s.wal.contents <+:
          scanLines (s.wal.contents ++ encodeRaftCommand cmd ++ "\n") := by
        rw [hsc, hlines]
        exact ⟨[encodeRaftCommand cmd], rfl⟩
      rw [hwr] at ht
      simp only [List.mem_cons, List.not_mem_nil, or_false] at ht
      rcases ht with ht | ht | ht
      · exact hbase t ht
      · subst ht
        exact ⟨⟨ls, by rw [hsc] at hgrow; exact hgrow.trans (List.prefix_refl _),
          hst⟩, hgrow⟩
      · subst ht
        have happ : (FSM.Apply s cmd).2.wal.contents =
            s.wal.contents ++ encodeRaftCommand cmd ++ "\n" := by
          rw [FSM.Apply, hwr]
          by_cases h1 : cmd.Op = "SET"
          · simp [h1]
          by_cases h2 : cmd.Op = "DELETE"
          · simp [h1, h2]
          · simp [h1, h2]
        by_cases h1 : cmd.Op = "SET"
        · refine ⟨⟨ls ++ [encodeRaftCommand cmd], ?_, ?_⟩, ?_⟩
          · rw [happ, hlines]
          · rw [show (FSM.Apply s cmd).2.store = s.store.Set cmd.Key cmd.Value
              from by rw [FSM.Apply, hwr]; simp [h1]]
            rw [storeOfLines_append_encode, dispatchStore, if_pos h1, hst]
          · rw [happ, hlines, hsc]
            exact ⟨[encodeRaftCommand cmd], rfl⟩
        by_cases h2 : cmd.Op = "DELETE"
        · refine ⟨⟨ls ++ [encodeRaftCommand cmd], ?_, ?_⟩, ?_⟩
          · rw [happ, hlines]
          · rw [show (FSM.Apply s cmd).2.store = s.store.Delete cmd.Key
              from by rw [FSM.Apply, hwr]; simp [h1, h2]]
            rw [storeOfLines_append_encode, dispatchStore, if_neg h1,
              if_pos h2, hst]
          · rw [happ, hlines, hsc]
            exact ⟨[encodeRaftCommand cmd], rfl⟩
        · refine ⟨⟨ls, ?_, ?_⟩, ?_⟩
          · rw [happ, hlines]
            exact ⟨[encodeRaftCommand cmd], rfl⟩
          · rw [show (FSM.Apply s cmd).2.store = s.store
              from by rw [FSM.Apply, hwr]; simp [h1, h2]]
            exact hst
          · rw [happ, hlines, hsc]
            exact ⟨[encodeRaftCommand cmd], rfl⟩

theorem c4_wal_append_before_mutation_witness :
    walBeforeStoreProp ⟨"SET", "k", "v"⟩ initialFSMState :=
  c4_wal_append_before_mutation ⟨"SET", "k", "v"⟩ initialFSMState []
    ⟨by simp, rfl⟩ rfl

/-- C5 counterexample: the claim says an unrecognized op is a non-fatal
no-op (the node does not crash); evaluating `FSM.Apply` on the concrete
op `"NOOP"` shows the node panics instead — the default branch of the
dispatch calls `log.Panicf`. -/
theorem c5_unrecognized_op_cex :
    (FSM.Apply initialFSMState ⟨"NOOP", "", ""⟩).1 = .panicked := rfl

/-- C5 (amended): for every command whose op is neither `SET` nor
`DELETE`, `FSM.Apply` panics — fatal to the node, not a logged no-op —
after the WAL step, and the store is left unchanged. -/
theorem c5_unrecognized_op_panics (cmd : RaftCommand) (s : FSMState)
    (h1 : cmd.Op ≠ "SET") (h2 : cmd.Op ≠ "DELETE") :
    (FSM.Apply s cmd).1 = .panicked ∧ (FSM.Apply s cmd).2.store = s.store :=
  fsm_apply_default_branch cmd s h1 h2

theorem c5_unrecognized_op_panics_witness :
    (FSM.Apply initialFSMState ⟨"TX_LOG", "", ""⟩).1 = .panicked ∧
    (FSM.Apply initialFSMState ⟨"TX_LOG", "", ""⟩).2.store =
      initialFSMState.store :=
  c5_unrecognized_op_panics ⟨"TX_LOG", "", ""⟩ initialFSMState
    (by decide) (by decide)

/-- C6: `WAL.WriteCommand` serializes the command, appends the `'\n'`
record delimiter, writes, and syncs; it returns success exactly when the
write and the flush both succeed (serialization of these command structs
is total), on success the file gained exactly the delimited record, and
each failing step's error is propagated to the caller. -/
theorem c6_writecommand_durability (w : WAL) (cmd : ServerCommand) :
    ((w.WriteCommand cmd).1 = none ↔
      w.writeFails = false ∧ w.syncFails = false) ∧
    (w.writeFails = false → w.syncFails = false →
      (w.WriteCommand cmd).2.contents =
        w.contents ++ encodeServerCommand cmd ++ "\n") ∧
    (w.writeFails = true → (w.WriteCommand cmd).1 = some .writeErr) ∧
    (w.writeFails = false → w.syncFails = true →
      (w.WriteCommand cmd).1 = some .syncErr) := by
  rw [WAL.WriteCommand, WAL.WriteRecord]
  cases hw : w.writeFails <;> cases hs : w.syncFails <;> simp

theorem c6_writecommand_durability_witness :
    ((WAL.mk "" false false).WriteCommand ⟨"SET", "k", "v", []⟩).1 = none ∧
    ((WAL.mk "" false false).WriteCommand ⟨"SET", "k", "v", []⟩).2.contents =
      "" ++ encodeServerCommand ⟨"SET", "k", "v", []⟩ ++ "\n" ∧
    ((WAL.mk "" true false).WriteCommand ⟨"SET", "k", "v", []⟩).1 =
      some .writeErr ∧
    ((WAL.mk "" false true).WriteCommand ⟨"SET", "k", "v", []⟩).1 =
      some .syncErr := by
  refine ⟨?_, ?_, ?_, ?_⟩
  · exact (c6_writecommand_durability (WAL.mk "" false false)
      ⟨"SET", "k", "v", []⟩).1.mpr ⟨rfl, rfl⟩
  · exact (c6_writecommand_durability (WAL.mk "" false false)
      ⟨"SET", "k", "v", []⟩).2.1 rfl rfl
  · exact (c6_writecommand_durability (WAL.mk "" true false)
      ⟨"SET", "k", "v", []⟩).2.2.1 rfl
  · exact (c6_writecommand_durability (WAL.mk "" false true)
      ⟨"SET", "k", "v", []⟩).2.2.2 rfl rfl

/-- C7: `Replay` on a missing file is a no-op success; on a present file
it feeds the scanner's records to the apply function in file order; when
every application succeeds the result is the final state, and when some
record's application fails first, that error is returned and the records
after it are never consulted (the conclusion holds for an arbitrary
replacement of the suffix). -/
theorem c7_replay_order_and_first_error {σ ε : Type}
    (f : String → σ → Except ε σ) (st : σ) :
    (Replay none f st = .ok st) ∧
    (∀ (s : String) (st' : σ), foldOk f (scanLines s) st = some st' →
      Replay (some s) f st = .ok st') ∧
    (∀ (s : String) (pre : List String) (x : String) (post : List String)
        (st' : σ) (e : ε),
      scanLines s = pre ++ x :: post → foldOk f pre st = some st' →
      f x st' = .error e →
      Replay (some s) f st = .error e ∧
      ∀ post2, replayLines (pre ++ x :: post2) f st = .error e) := by
  refine ⟨rfl, ?_, ?_⟩
  · intro s st' h
    rw [Replay]
    exact replayLines_of_foldOk f _ st st' h
  · intro s pre x post st' e hscan hpre hx
    constructor
    · rw [Replay, hscan]
      exact replayLines_first_error f pre x post st st' e hpre hx
    · intro post2
      exact replayLines_first_error f pre x post2 st st' e hpre hx

/-- A concrete apply function to observe `Replay`'s visit order: fails on
the record `"b"`, counts every other record. -/
def replayProbe (l : String) (n : Nat) : Except Nat Nat :=
  if l = "b" then .error 7 else .ok (n + 1)

theorem c7_replay_order_and_first_error_witness :
    Replay none replayProbe 0 = .ok 0 ∧
    Replay (some "a\nc\n") replayProbe 0 = .ok 2 ∧
    Replay (some "a\nb\nc\n") replayProbe 0 = .error 7 := by
  refine ⟨?_, ?_, ?_⟩
  · exact (c7_replay_order_and_first_error replayProbe 0).1
  · exact (c7_replay_order_and_first_error replayProbe 0).2.1 "a\nc\n" 2 rfl
  · exact ((c7_replay_order_and_first_error replayProbe 0).2.2 "a\nb\nc\n"
      ["a"] "b" ["c"] 1 7 rfl rfl rfl).1

/-- C8: appending any command sequence to a fresh WAL via `WriteCommand`
and then replaying the same file reproduces exactly the appended commands
— op, key, value and write_set — in append order. -/
theorem c8_wal_roundtrip (cmds : List ServerCommand) :
    Replay (some (appendAll WAL.NewWAL cmds).contents) collectCmd [] =
      .ok cmds := by
  rw [appendAll_clean cmds WAL.NewWAL rfl rfl]
  show Replay (some ("" ++ joinLines (cmds.map encodeServerCommand)))
    collectCmd [] = .ok cmds
  rw [String.empty_append, Replay,
    scanLines_joinLines _ (by
      intro l hl
      rcases List.mem_map.mp hl with ⟨c, _, hc⟩
      subst hc
      exact noNL_encodeServerCommand c),
    replayLines_collectCmd cmds []]
  rfl

/-- C9: replaying the WAL produced by a sequence of `FSM.Apply` calls
into a fresh store (through `main`'s replay closure) reconstructs exactly
the store obtained by applying the same commands directly, in the same
order, to a fresh store; both sides are pure functions of the command
list, so the reconstruction is deterministic. -/
theorem c9_replay_reconstructs_store (cmds : List RaftCommand)
    (hops : ∀ c ∈ cmds, c.Op = "SET" ∨ c.Op = "DELETE") :
    Replay (some (FSM.ApplyAll initialFSMState cmds).2.wal.contents)
        mainReplayApply Store.NewStore =
      .ok (cmds.foldl (fun st c => dispatchStore c st) Store.NewStore) ∧
    (FSM.ApplyAll initialFSMState cmds).2.store =
      cmds.foldl (fun st c => dispatchStore c st) Store.NewStore := by
  have hall := FSM.ApplyAll_clean cmds WAL.NewWAL Store.NewStore rfl rfl hops
  rw [show initialFSMState = (⟨WAL.NewWAL, Store.NewStore⟩ : FSMState) from rfl,
    hall]
  constructor
  · show Replay (some ("" ++ joinLines (cmds.map encodeRaftCommand)))
      mainReplayApply Store.NewStore = _
    rw [String.empty_append, Replay,
      scanLines_joinLines _ (by
        intro l hl
        rcases List.mem_map.mp hl with ⟨c, _, hc⟩
        subst hc
        exact noNL_encodeRaftCommand c),
      replayLines_mainReplayApply cmds Store.NewStore]
  · rfl

theorem c9_replay_reconstructs_store_witness :
    (Replay (some (FSM.ApplyAll initialFSMState
        [⟨"SET", "a", "1"⟩, ⟨"SET", "b", "2"⟩, ⟨"DELETE", "a", ""⟩]).2.wal.contents)
        mainReplayApply Store.NewStore =
      .ok ([⟨"SET", "a", "1"⟩, ⟨"SET", "b", "2"⟩, ⟨"DELETE", "a", ""⟩].foldl
        (fun st c => dispatchStore c st) Store.NewStore)) ∧
    (FSM.ApplyAll initialFSMState
        [⟨"SET", "a", "1"⟩, ⟨"SET", "b", "2"⟩, ⟨"DELETE", "a", ""⟩]).2.store =
      [⟨"SET", "a", "1"⟩, ⟨"SET", "b", "2"⟩, ⟨"DELETE", "a", ""⟩].foldl
        (fun st c => dispatchStore c st) Store.NewStore :=
  c9_replay_reconstructs_store
    [⟨"SET", "a", "1"⟩, ⟨"SET", "b", "2"⟩, ⟨"DELETE", "a", ""⟩] (by decide)

/-- C10: the startup replay closure dispatches only on `SET` and `DELETE`
and returns success without touching the store for any other op, so a WAL
record carrying such an op (for example TX_COMMIT) is silently skipped
during recovery — while `FSM.Apply` panics on the same op live. -/
theorem c10_replay_skips_unknown_op (cmd : RaftCommand) (st : Store)
    (s : FSMState) (h1 : cmd.Op ≠ "SET") (h2 : cmd.Op ≠ "DELETE") :
    mainReplayApply (encodeRaftCommand cmd) st = .ok st ∧
    (FSM.Apply s cmd).1 = .panicked := by
  constructor
  · rw [mainReplayApply, decodeRaft_encodeRaft cmd]
    simp [h1, h2]
  · exact (fsm_apply_default_branch cmd s h1 h2).1

theorem c10_replay_skips_unknown_op_witness :
    mainReplayApply (encodeRaftCommand ⟨"TX_COMMIT", "", ""⟩) Store.NewStore =
      .ok Store.NewStore ∧
    (FSM.Apply initialFSMState ⟨"TX_COMMIT", "", ""⟩).1 = .panicked :=
  c10_replay_skips_unknown_op ⟨"TX_COMMIT", "", ""⟩ Store.NewStore
    initialFSMState (by decide) (by decide)

end HeliosDB
